import Mathlib

/-!
Shallow embedding of `git-tree` (`src/main.rs`): status-tree assembly and
rendering.  `OsString` is modelled as `String`, `usize` as `Nat`,
`BTreeMap<OsString, Node>` as an association list kept sorted by key
(`ChildMap`), `Vec<OsString>` as `List String`.
-/

namespace GitTree

/-- The `Status` enum of `src/main.rs` (lines 35–56). -/
inductive Status where
  | worktreeRemoved
  | worktreeAdded
  | worktreeModified
  | indexRemoved
  | indexAdded
  | indexModified
  | typeChange
  | renamed
  | copied
  | intentToAdd
  | conflict
  | ignored
deriving DecidableEq, Repr

/-- `DiffStat` (lines 92–98). -/
structure DiffStat where
  branch : String
  files_changed : Nat
  insertions : Nat
  deletions : Nat
deriving DecidableEq, Repr

/-- `Leaf` (lines 86–90). -/
structure Leaf where
  name : String
  status : Status
deriving DecidableEq, Repr

/-- `Summary` (lines 26–30). -/
structure Summary where
  name : String
  stats : DiffStat
deriving DecidableEq, Repr

mutual
/-- `Node` (lines 13–18). -/
inductive Node where
  | tree : Tree → Node
  | summary : Summary → Node
  | leaf : Leaf → Node

/-- `Tree` (lines 20–24); its `children : BTreeMap<OsString, Node>` is a
`ChildMap`, an association list sorted strictly by key. -/
inductive Tree where
  | mk : String → ChildMap → Tree

/-- The entries of a `BTreeMap<OsString, Node>`, in ascending key order. -/
inductive ChildMap where
  | nil : ChildMap
  | cons : String → Node → ChildMap → ChildMap
end

def Tree.name : Tree → String
  | .mk n _ => n

def Tree.children : Tree → ChildMap
  | .mk _ c => c

/-- `BTreeMap::get`. -/
def ChildMap.find (k : String) : ChildMap → Option Node
  | .nil => none
  | .cons k' v r => if k = k' then some v else ChildMap.find k r

/-- `BTreeMap::insert`: place the new entry at its sorted position,
replacing an existing entry with the same key. -/
def ChildMap.insert (k : String) (v : Node) : ChildMap → ChildMap
  | .nil => .cons k v .nil
  | .cons k' v' r =>
    if k < k' then .cons k v (.cons k' v' r)
    else if k = k' then .cons k v r
    else .cons k' v' (ChildMap.insert k v r)

def ChildMap.toList : ChildMap → List (String × Node)
  | .nil => []
  | .cons k v r => (k, v) :: ChildMap.toList r

def ChildMap.keys : ChildMap → List String
  | .nil => []
  | .cons k _ r => k :: ChildMap.keys r

/-- The `BTreeMap` ordering invariant: keys strictly ascending. -/
def ChildMap.sortedKeys : ChildMap → Bool
  | .nil => true
  | .cons _ _ .nil => true
  | .cons k _ (.cons k' v r) => decide (k < k') && ChildMap.sortedKeys (.cons k' v r)

mutual
/-- A node all of whose `Tree` descendants satisfy the `BTreeMap` ordering
invariant.  Every tree the program manipulates satisfies this by
construction, since `BTreeMap` keeps its entries sorted. -/
def Node.wf : Node → Bool
  | .tree t => Tree.wf t
  | .summary _ => true
  | .leaf _ => true

def Tree.wf : Tree → Bool
  | .mk _ cs => ChildMap.sortedKeys cs && ChildMap.allWf cs

def ChildMap.allWf : ChildMap → Bool
  | .nil => true
  | .cons _ v r => Node.wf v && ChildMap.allWf r
end

/-- `std::path::Component`: the path components a `Components` iterator can
yield (the Windows-only `Prefix` variant is folded into `rootDir`). -/
inductive PathComp where
  | normal (s : String)
  | rootDir
  | curDir
  | parentDir
deriving DecidableEq, Repr

def PathComp.isNormal : PathComp → Bool
  | .normal _ => true
  | _ => false

/-- The panic message of `unimplemented!()`, reached by
`Tree::add_node_at_path` on a non-`Normal` component (line 149). -/
def unimplementedMsg : String := "not implemented"

/-- `Tree::add_node_at_path` (lines 134–155).  The `BTreeMap::entry` /
`or_insert` dance becomes a case split on `find`: a vacant entry gets a
fresh empty `Tree` named after the component and descends into it, an
occupied `Tree` entry descends in place, and an occupied non-`Tree` entry
makes the `if let &mut Node::Tree(..)` pattern fail, so nothing happens.
A non-`Normal` component hits `unimplemented!()`; the panic is modelled as
`.error` (the process aborts, so no partial insertion is observable).  At
path exhaustion `add_node` stores the node under `name`. -/
def Tree.add_node_at_path : Tree → Node → String → List PathComp → Except String Tree
  | .mk tn cs, node, name, [] => .ok (.mk tn (cs.insert name node))
  | .mk tn cs, node, name, .normal d :: rest =>
    match cs.find d with
    | none =>
      match Tree.add_node_at_path (.mk d .nil) node name rest with
      | .ok t' => .ok (.mk tn (cs.insert d (.tree t')))
      | .error e => .error e
    | some (.tree t') =>
      match Tree.add_node_at_path t' node name rest with
      | .ok t'' => .ok (.mk tn (cs.insert d (.tree t'')))
      | .error e => .error e
    | some _ => .ok (.mk tn cs)
  | .mk _ _, _, _, _ :: _ => .error unimplementedMsg

/-- `Tree::add_leaf_at_path` (lines 128–132). -/
def Tree.add_leaf_at_path (t : Tree) (leaf : Leaf) (path : List PathComp) :
    Except String Tree :=
  t.add_node_at_path (.leaf leaf) leaf.name path

/-- `Tree::add_node` (lines 157–159). -/
def Tree.add_node (t : Tree) (node : Node) (name : String) : Tree :=
  .mk t.name (t.children.insert name node)

/-- `ansi_term` colours used by the program. -/
inductive Colour where
  | red
  | green
  | yellow
  | blue
  | white
  | fixed (n : Nat)
deriving DecidableEq, Repr

/-- An `ansi_term::Style`: a colour, either normal or bold. -/
structure AnsiStyle where
  colour : Colour
  bold : Bool
deriving DecidableEq, Repr

def Colour.code : Colour → String
  | .red => "31"
  | .green => "32"
  | .yellow => "33"
  | .blue => "34"
  | .white => "37"
  | .fixed n => "38;5;" ++ toString n

/-- `Style::paint`: wrap the text in the ANSI escape sequence for the
style. -/
def AnsiStyle.paint (st : AnsiStyle) (txt : String) : String :=
  "\x1b[" ++ (if st.bold then "1;" else "") ++ st.colour.code ++ "m" ++ txt ++ "\x1b[0m"

def grayStyle : AnsiStyle := ⟨.fixed 244, false⟩

/-- The `style` match in `impl Lines for Leaf` (lines 258–265). -/
def leafStyle : Status → AnsiStyle
  | .worktreeModified => ⟨.red, false⟩
  | .indexModified => ⟨.red, true⟩
  | .worktreeAdded => ⟨.green, false⟩
  | .indexAdded => ⟨.green, true⟩
  | .ignored => ⟨.blue, false⟩
  | _ => ⟨.white, false⟩

/-- The `modifier_index` match in `impl Lines for Leaf` (lines 267–271). -/
def modifierIndex : Status → String
  | .indexModified => "M"
  | .indexAdded => "N"
  | _ => "-"

/-- The `modifier_worktree` match in `impl Lines for Leaf` (lines 273–280). -/
def modifierWorktree : Status → String
  | .worktreeModified => "M"
  | .worktreeAdded => "N"
  | .worktreeRemoved => "D"
  | _ => "-"

/-- `impl Lines for Leaf` (lines 256–292): one line, the two gray modifier
glyphs then a space then the styled name. -/
def Leaf.lines (l : Leaf) : List String :=
  [grayStyle.paint (modifierIndex l.status) ++ grayStyle.paint (modifierWorktree l.status)
    ++ " " ++ (leafStyle l.status).paint l.name]

/-- `impl Lines for Summary` (lines 238–253): one line,
`"{name} {[branch]} +{ins} -{del} ({files})"` with the bracketed branch in
gray, insertions green, deletions red, files changed yellow. -/
def Summary.lines (s : Summary) : List String :=
  [s.name ++ " " ++ grayStyle.paint ("[" ++ s.stats.branch ++ "]")
    ++ " +" ++ (⟨.green, false⟩ : AnsiStyle).paint (toString s.stats.insertions)
    ++ " -" ++ (⟨.red, false⟩ : AnsiStyle).paint (toString s.stats.deletions)
    ++ " (" ++ (⟨.yellow, false⟩ : AnsiStyle).paint (toString s.stats.files_changed) ++ ")"]

/-- `Lines::prepend` (lines 165–174). -/
def prependWith (lines : List String) (w : String) : List String :=
  lines.map (fun l => w ++ l)

/-- `Lines::prepend_first_and_rest` (lines 176–192).  `split_at_mut(1)`
panics when `lines` is empty; the panic is modelled as `none`. -/
def prependFirstAndRest (lines : List String) (firstWith restWith : String) :
    Option (List String) :=
  match lines with
  | [] => none
  | first :: rest => some ((firstWith ++ first) :: prependWith rest restWith)

mutual
/-- `impl Lines for Node` (lines 195–203): dispatch on the variant. -/
def Node.lines : Node → Option (List String)
  | .tree t => Tree.lines t
  | .summary s => some (Summary.lines s)
  | .leaf l => some (Leaf.lines l)

/-- `impl Lines for Tree` (lines 205–236): the tree's own name, then the
children's blocks.  Rust splits the child list at `len - 1` and flat-maps
`prepend_first_and_rest` with `"├── "`/`"│   "` over the initial segment,
then appends the last child's block with `"└── "`/`"    "`; the recursion
below renders the same blocks in the same order. -/
def Tree.lines : Tree → Option (List String)
  | .mk name children => (ChildMap.renderChildren children).map (fun rest => name :: rest)

def ChildMap.renderChildren : ChildMap → Option (List String)
  | .nil => some []
  | .cons _ v .nil => (Node.lines v).bind (fun ls => prependFirstAndRest ls "└── " "    ")
  | .cons _ v rest =>
    (Node.lines v).bind fun ls =>
      (prependFirstAndRest ls "├── " "│   ").bind fun a =>
        (ChildMap.renderChildren rest).map fun b => a ++ b
end

/-- Total version of `prepend_first_and_rest`, used to state rendering
results (its `[]` case is never reached, see `node_lines_some`). -/
def pfrT (lines : List String) (firstWith restWith : String) : List String :=
  match lines with
  | [] => []
  | first :: rest => (firstWith ++ first) :: prependWith rest restWith

/-- The line block of a node; total accessor for `Node.lines`, which is
always `some` (see `node_lines_some`). -/
def Node.linesNE (n : Node) : List String :=
  (Node.lines n).getD []

/-- `Args` (lines 446–464). -/
structure Args where
  all : Bool
  depth : Nat
  summary : Bool
  only_show_changes : Bool
deriving DecidableEq, Repr

/-- One record yielded by `repo.status(..)` in `walk_entries`:
`item.location()` parsed into path components, and the classified
`Status` the two `item.clone().into()` calls produce. -/
structure StatusItem where
  location : List PathComp
  status : Status
deriving DecidableEq, Repr

/-- The data the walk needs from an opened repository (the external
`git2`/`gix` collaborators).  `entriesResult` is the flat status-record
list of full mode, `.error` when `workdir()`/`gix::open`/`status`/the
per-item `?`s fail; `diffStat` is `DiffStat::from(repo)`, `.error` when
`HEAD` is unresolvable. -/
structure RepoData where
  entriesResult : Except String (List StatusItem)
  diffStat : Except String DiffStat

/-- A filesystem location as the walk observes it:
`file` — `path.is_dir()` is false;
`repo` — a directory `Repository::open` succeeds on;
`dir` — a plain directory (`Repository::open` fails); `none` means
`read_dir()` fails, otherwise the child entries in iteration order, each
`none` when the `DirEntry` itself is an `Err` (skipped by
`filter_map(|e| e.ok())`), else its file name and location. -/
inductive Location where
  | file
  | repo (r : RepoData)
  | dir (readDir : Option (List (Option (String × Location))))

/-- The outcome of a walk step: `ok` models `Ok`, `error` models `Err`
(catchable by `.ok()`), `panic` models a process-aborting panic, which no
`Result` combinator intercepts. -/
inductive WalkResult (α : Type) where
  | ok : α → WalkResult α
  | error : String → WalkResult α
  | panic : String → WalkResult α
deriving DecidableEq, Repr

def WalkResult.isPanic : WalkResult α → Bool
  | .panic _ => true
  | _ => false

/-- `file_name` (lines 348–350): `Path::file_name()` is `Some` exactly when
the last component is `Normal`; otherwise Rust falls back to
`path.as_os_str()`, the whole path rendered as a string. -/
def compString : PathComp → String
  | .normal s => s
  | .parentDir => ".."
  | .curDir => "."
  | .rootDir => "/"

def pathString (p : List PathComp) : String :=
  String.intercalate "/" (p.map compString)

def fileName (p : List PathComp) : String :=
  match p.getLast? with
  | some (.normal s) => s
  | _ => pathString p

/-- `Path::parent()`: `None` for an empty or root path, otherwise the path
without its last component. -/
def pathParent (p : List PathComp) : Option (List PathComp) :=
  match p with
  | [] => none
  | [.rootDir] => none
  | _ => some p.dropLast

/-- `walk_summary` (lines 352–365). -/
def walkSummary (r : RepoData) (name : String) (args : Args) : WalkResult (Option Node) :=
  match r.diffStat with
  | .error e => .error e
  | .ok stats =>
    if args.only_show_changes && stats.insertions == 0 && stats.deletions == 0 then
      .ok none
    else
      .ok (some (.summary ⟨name, stats⟩))

/-- The `for item in status.into_iter(..)` loop of `walk_entries`
(lines 324–343): keep a record unless its status is `Ignored` and `--all`
is unset; skip records whose path has no parent; insert the rest as a
leaf named after the path's file name; an `unimplemented!()` inside the
insertion aborts the process. -/
def insertItems (args : Args) : List StatusItem → Tree → WalkResult Tree
  | [], root => .ok root
  | item :: rest, root =>
    if args.all || item.status ≠ Status.ignored then
      match pathParent item.location with
      | some parent =>
        match root.add_leaf_at_path ⟨fileName item.location, item.status⟩ parent with
        | .ok root' => insertItems args rest root'
        | .error e => .panic e
      | none => insertItems args rest root
    else insertItems args rest root

/-- `walk_entries` (lines 312–346). -/
def walkEntries (r : RepoData) (name : String) (args : Args) : WalkResult (Option Node) :=
  match r.entriesResult with
  | .error e => .error e
  | .ok items =>
    match insertItems args items (.mk name .nil) with
    | .ok root => .ok (some (.tree root))
    | .error e => .error e
    | .panic e => .panic e

/-- `walk_repository` (lines 304–310). -/
def walkRepository (r : RepoData) (name : String) (args : Args) : WalkResult (Option Node) :=
  if args.summary then walkSummary r name args else walkEntries r name args

mutual
/-- The per-entry `filter_map` of `walk_directory` (lines 375–382): walk
each readable child with the decremented budget, keep `Ok(Some(..))`
results with the entry's file name, silently drop `Err(..)` and
`Ok(None)`; a panic inside a child's walk aborts everything. -/
def collectChildren (entries : List (String × Location)) (childDepth : Nat) (args : Args) :
    WalkResult (List (String × Node)) :=
  match entries with
  | [] => .ok []
  | (n, loc) :: rest =>
    match walkPath n loc childDepth args with
    | .panic e => .panic e
    | .error _ => collectChildren rest childDepth args
    | .ok none => collectChildren rest childDepth args
    | .ok (some node) =>
      match collectChildren rest childDepth args with
      | .ok others => .ok ((n, node) :: others)
      | .error e => .error e
      | .panic e => .panic e
termination_by (childDepth, 1, entries.length)

/-- `walk_directory` (lines 367–389): build a `Tree` named after the
directory whose children are the kept walk results, inserted in entry
order via `add_node`.  Rust passes `depth` and recurses at `depth - 1`;
here the already-decremented budget `childDepth` is passed. -/
def walkDirectory (name : String) (entries : List (Option (String × Location)))
    (childDepth : Nat) (args : Args) : WalkResult Node :=
  match collectChildren (entries.filterMap id) childDepth args with
  | .ok kept =>
    .ok (.tree (kept.foldl (fun t p => t.add_node p.2 p.1) (Tree.mk name .nil)))
  | .error e => .error e
  | .panic e => .panic e
termination_by (childDepth, 2, 0)

/-- `walk_path` (lines 391–413): a non-directory yields no node; a
repository is walked whatever the budget; a plain directory yields no
node at budget `0` and is recursed into with budget `depth - 1`
otherwise, after `read_dir()` (whose failure propagates as `Err`). -/
def walkPath (name : String) (loc : Location) (depth : Nat) (args : Args) :
    WalkResult (Option Node) :=
  match loc with
  | .file => .ok none
  | .repo r => walkRepository r name args
  | .dir rd =>
    match depth with
    | 0 => .ok none
    | d + 1 =>
      match rd with
      | none => .error "read_dir failed"
      | some entries =>
        match walkDirectory name entries d args with
        | .ok node => .ok (some node)
        | .error e => .error e
        | .panic e => .panic e
termination_by (depth, 0, 0)
end

/-- The error classification of `Repository::discover` as `fallback`
inspects it: `notFound` is `ErrorClass::Repository` + `ErrorCode::NotFound`
(no repository on the path or any ancestor), `otherError` any other
failure, `found` a discovered repository. -/
inductive DiscoverResult where
  | notFound
  | otherError (e : String)
  | found (r : RepoData)

/-- The message `fallback` builds for a failed discovery, with
`path = "."` as `run` passes it (`{:?}` quotes the path). -/
def noRepoMessage (path : String) : String :=
  "no git repository found at \"" ++ path ++ "\", you might want to try " ++
    "running git-tree with `--depth`, see `git-tree --help` for details"

/-- `fallback` (lines 415–432).  The node name is `file_name(path)`; for
the `"."` the program passes, `Path::file_name()` is `None` and the
`unwrap_or` fallback returns the whole path, so the name is `path`
itself. -/
def fallback (disc : DiscoverResult) (path : String) (args : Args) :
    WalkResult (Option Node) :=
  match disc with
  | .notFound => .error (noRepoMessage path)
  | .otherError e => .error e
  | .found r => walkRepository r path args

/-- `Tree::add_node_at_path` specialised to paths of `Normal` components,
where the `unimplemented!()` arm is unreachable, as a pure function
(`add_node_at_path_normal` below proves the two agree). -/
def Tree.addN : Tree → Node → String → List String → Tree
  | .mk tn cs, node, name, [] => .mk tn (cs.insert name node)
  | .mk tn cs, node, name, d :: rest =>
    match cs.find d with
    | none => .mk tn (cs.insert d (.tree (Tree.addN (.mk d .nil) node name rest)))
    | some (.tree t') => .mk tn (cs.insert d (.tree (Tree.addN t' node name rest)))
    | some _ => .mk tn cs

/-- The walk from the root along `dirs` runs into a child that exists but
is not a `Tree` (so `add_node_at_path`'s `if let` fails there and the
insertion dies silently). -/
def Tree.blockedAt : Tree → List String → Bool
  | _, [] => false
  | t, d :: ds =>
    match t.children.find d with
    | none => false
    | some (.tree t') => t'.blockedAt ds
    | some _ => true

def Node.isBranch : Node → Bool
  | .tree _ => true
  | _ => false

/-- Inserting one `(relative path, category)` record, as `walk_entries`
does it: the leaf is named by the path's file name and inserted at the
path's parent components. -/
def insertRecord (t : Tree) (r : List String × Status) : Except String Tree :=
  match pathParent (r.1.map .normal) with
  | some parent => t.add_leaf_at_path ⟨fileName (r.1.map .normal), r.2⟩ parent
  | none => .ok t

/-- Pure form of `insertRecord` (they agree: `insertRecord_eq_ok`). -/
def insertRecordN (t : Tree) (r : List String × Status) : Tree :=
  match r.1.getLast? with
  | none => t
  | some lastName => t.addN (.leaf ⟨lastName, r.2⟩) lastName r.1.dropLast

/-- Build a status tree from a flat record list, inserting in list
order. -/
def buildTree (name : String) (records : List (List String × Status)) :
    Except String Tree :=
  records.foldl (fun acc r => acc.bind (fun t => insertRecord t r)) (.ok (.mk name .nil))

/-- Pure form of `buildTree`. -/
def buildTreeN (name : String) (records : List (List String × Status)) : Tree :=
  records.foldl insertRecordN (.mk name .nil)

/-- The rendered line block of a built tree (`none` when building or
rendering fails). -/
def renderBuild (name : String) (records : List (List String × Status)) :
    Option (List String) :=
  match buildTree name records with
  | .ok t => Tree.lines t
  | .error _ => none

/-- A `ChildMap` from an entry list, inserted left to right (mirrors the
`for (node, file_name) in new_entries` loop of `walk_directory`). -/
def ChildMap.ofList (l : List (String × Node)) : ChildMap :=
  l.foldl (fun cs p => cs.insert p.1 p.2) .nil

/-- `run` (lines 466–482) up to printing: walk `"."` at the requested
depth, falling back to discovery when the walk yields no node; walk
errors propagate without fallback. -/
def run (loc : Location) (disc : DiscoverResult) (args : Args) :
    WalkResult (Option Node) :=
  match walkPath "." loc args.depth args with
  | .ok (some n) => .ok (some n)
  | .ok none => fallback disc "." args
  | .error e => .error e
  | .panic e => .panic e

/-! ### Lemmas about `ChildMap`, the `BTreeMap` model -/

/-- Structural induction on `ChildMap` alone (the mutually inductive
`Node`/`Tree`/`ChildMap` recursor has several motives, which the
`induction` tactic cannot use directly). -/
theorem ChildMap.inductionOn {motive : ChildMap → Prop} (nil : motive .nil)
    (cons : ∀ k v r, motive r → motive (.cons k v r)) : ∀ m, motive m
  | .nil => nil
  | .cons k v r => cons k v r (ChildMap.inductionOn nil cons r)

theorem ChildMap.find_insert_self (k : String) (v : Node) (m : ChildMap) :
    (m.insert k v).find k = some v := by
  induction m using ChildMap.inductionOn with
  | nil => simp [ChildMap.insert, ChildMap.find]
  | cons k' v' r ih =>
    by_cases h1 : k < k'
    · simp [ChildMap.insert, h1, ChildMap.find]
    · by_cases h2 : k = k'
      · simp [ChildMap.insert, h1, h2, ChildMap.find]
      · simp [ChildMap.insert, h1, h2, ChildMap.find, ih]

theorem ChildMap.find_insert_ne (h : j ≠ k) (v : Node) (m : ChildMap) :
    (m.insert k v).find j = m.find j := by
  induction m using ChildMap.inductionOn with
  | nil => simp [ChildMap.insert, ChildMap.find, h]
  | cons k' v' r ih =>
    by_cases h1 : k < k'
    · simp [ChildMap.insert, h1, ChildMap.find, h]
    · by_cases h2 : k = k'
      · subst h2; simp [ChildMap.insert, h1, ChildMap.find, h]
      · by_cases h3 : j = k'
        · simp [ChildMap.insert, h1, h2, ChildMap.find, h3]
        · simp [ChildMap.insert, h1, h2, ChildMap.find, h3, ih]

theorem ChildMap.insert_insert_self (k : String) (v w : Node) (m : ChildMap) :
    (m.insert k v).insert k w = m.insert k w := by
  induction m using ChildMap.inductionOn with
  | nil => simp [ChildMap.insert, lt_irrefl]
  | cons k' v' r ih =>
    by_cases h1 : k < k'
    · simp [ChildMap.insert, h1, lt_irrefl]
    · by_cases h2 : k = k'
      · simp [ChildMap.insert, h1, h2, lt_irrefl]
      · simp [ChildMap.insert, h1, h2, ih]

theorem ChildMap.insert_comm (h : k ≠ j) (v w : Node) (m : ChildMap) :
    (m.insert k v).insert j w = (m.insert j w).insert k v := by
  induction m using ChildMap.inductionOn with
  | nil =>
    rcases lt_trichotomy k j with h1 | h1 | h1
    · simp [ChildMap.insert, h1, lt_asymm h1, h.symm]
    · exact absurd h1 h
    · simp [ChildMap.insert, h1, lt_asymm h1, h]
  | cons a b r ih =>
    rcases lt_trichotomy k a with hka | hka | hka <;>
      rcases lt_trichotomy j a with hja | hja | hja
    · -- k < a, j < a
      rcases lt_trichotomy k j with h1 | h1 | h1
      · simp [ChildMap.insert, hka, hja, h1, lt_asymm h1, h, h.symm]
      · exact absurd h1 h
      · simp [ChildMap.insert, hka, hja, h1, lt_asymm h1, h, h.symm]
    · -- k < a, j = a
      subst hja
      simp [ChildMap.insert, hka, lt_asymm hka, h, h.symm, lt_irrefl]
    · -- k < a, j > a
      have hkj : k < j := lt_trans hka hja
      simp [ChildMap.insert, hka, hja, lt_asymm hja, lt_asymm hkj, ne_of_gt hja,
        ne_of_gt hkj]
    · -- k = a, j < a
      subst hka
      simp [ChildMap.insert, hja, lt_asymm hja, h, h.symm, lt_irrefl]
    · -- k = a, j = a
      exact absurd (hka.trans hja.symm) h
    · -- k = a, j > a
      subst hka
      simp [ChildMap.insert, hja, lt_asymm hja, ne_of_gt hja, lt_irrefl]
    · -- k > a, j < a
      have hjk : j < k := lt_trans hja hka
      simp [ChildMap.insert, hka, hja, lt_asymm hka, lt_asymm hjk, ne_of_gt hka,
        ne_of_gt hjk]
    · -- k > a, j = a
      subst hja
      simp [ChildMap.insert, hka, lt_asymm hka, ne_of_gt hka, lt_irrefl]
    · -- k > a, j > a
      simp [ChildMap.insert, hka, hja, lt_asymm hka, lt_asymm hja, ne_of_gt hka,
        ne_of_gt hja, ih]

theorem ChildMap.find_some_mem_keys {m : ChildMap} (h : m.find k = some v) :
    k ∈ m.keys := by
  induction m using ChildMap.inductionOn with
  | nil => simp [ChildMap.find] at h
  | cons k' v' r ih =>
    by_cases h1 : k = k'
    · simp [ChildMap.keys, h1]
    · simp only [ChildMap.find, h1, if_false] at h
      simp [ChildMap.keys, ih h]

theorem ChildMap.mem_keys_insert {m : ChildMap} (h : j ∈ (m.insert k v).keys) :
    j = k ∨ j ∈ m.keys := by
  induction m using ChildMap.inductionOn with
  | nil => simpa [ChildMap.insert, ChildMap.keys] using h
  | cons k' v' r ih =>
    by_cases h1 : k < k'
    · simpa [ChildMap.insert, h1, ChildMap.keys] using h
    · by_cases h2 : k = k'
      · subst h2
        rcases (by simpa [ChildMap.insert, h1, ChildMap.keys] using h : j = k ∨ j ∈ r.keys)
          with h3 | h3
        · exact Or.inl h3
        · exact Or.inr (by simp [ChildMap.keys, h3])
      · rcases (by simpa [ChildMap.insert, h1, h2, ChildMap.keys] using h :
            j = k' ∨ j ∈ (r.insert k v).keys) with h3 | h3
        · exact Or.inr (by simp [ChildMap.keys, h3])
        · rcases ih h3 with h4 | h4
          · exact Or.inl h4
          · exact Or.inr (by simp [ChildMap.keys, h4])

theorem ChildMap.pairwise_keys_insert {m : ChildMap}
    (hm : m.keys.Pairwise (· < ·)) (k : String) (v : Node) :
    (m.insert k v).keys.Pairwise (· < ·) := by
  induction m using ChildMap.inductionOn with
  | nil => simp [ChildMap.insert, ChildMap.keys]
  | cons k' v' r ih =>
    rw [ChildMap.keys, List.pairwise_cons] at hm
    obtain ⟨hlt, hr⟩ := hm
    by_cases h1 : k < k'
    · simp only [ChildMap.insert, if_pos h1, ChildMap.keys]
      refine List.pairwise_cons.2 ⟨?_, List.pairwise_cons.2 ⟨hlt, hr⟩⟩
      intro j hj
      rcases List.mem_cons.1 hj with h3 | h3
      · exact h3 ▸ h1
      · exact lt_trans h1 (hlt j h3)
    · by_cases h2 : k = k'
      · subst h2
        simp only [ChildMap.insert, if_neg h1, if_pos rfl, ChildMap.keys]
        exact List.pairwise_cons.2 ⟨hlt, hr⟩
      · have hk'k : k' < k := by
          rcases lt_trichotomy k k' with h3 | h3 | h3
          · exact absurd h3 h1
          · exact absurd h3 h2
          · exact h3
        simp only [ChildMap.insert, if_neg h1, if_neg h2, ChildMap.keys]
        refine List.pairwise_cons.2 ⟨?_, ih hr⟩
        intro j hj
        rcases ChildMap.mem_keys_insert hj with h3 | h3
        · exact h3 ▸ hk'k
        · exact hlt j h3

theorem ChildMap.insert_find_self_eq {m : ChildMap}
    (hm : m.keys.Pairwise (· < ·)) (hf : m.find k = some v) : m.insert k v = m := by
  induction m using ChildMap.inductionOn with
  | nil => simp [ChildMap.find] at hf
  | cons k' v' r ih =>
    rw [ChildMap.keys, List.pairwise_cons] at hm
    obtain ⟨hlt, hr⟩ := hm
    by_cases h1 : k = k'
    · subst h1
      simp [ChildMap.find] at hf
      simp [ChildMap.insert, lt_irrefl, hf]
    · simp only [ChildMap.find, if_neg h1] at hf
      have hk'k : k' < k := hlt k (ChildMap.find_some_mem_keys hf)
      simp [ChildMap.insert, lt_asymm hk'k, h1, ih hr hf]

theorem ChildMap.sortedKeys_iff_pairwise (m : ChildMap) :
    m.sortedKeys = true ↔ m.keys.Pairwise (· < ·) := by
  have chain : ∀ m' : ChildMap, m'.sortedKeys = true ↔ List.Chain' (· < ·) m'.keys := by
    intro m'
    induction m' using ChildMap.inductionOn with
    | nil => simp [ChildMap.sortedKeys, ChildMap.keys]
    | cons k v r ih =>
      cases r with
      | nil => simp [ChildMap.sortedKeys, ChildMap.keys]
      | cons k' v' r' =>
        rw [ChildMap.sortedKeys, Bool.and_eq_true, decide_eq_true_eq, ih]
        simp [ChildMap.keys, List.chain'_cons]
  rw [chain m, List.chain'_iff_pairwise]

theorem ChildMap.allWf_insert {m : ChildMap} (hm : m.allWf = true)
    (hv : v.wf = true) : (m.insert k v).allWf = true := by
  induction m using ChildMap.inductionOn with
  | nil => simp [ChildMap.insert, ChildMap.allWf, hv]
  | cons k' v' r ih =>
    rw [ChildMap.allWf, Bool.and_eq_true] at hm
    by_cases h1 : k < k'
    · simp [ChildMap.insert, h1, ChildMap.allWf, hv, hm.1, hm.2]
    · by_cases h2 : k = k'
      · simp [ChildMap.insert, h1, h2, ChildMap.allWf, hv, hm.2]
      · simp [ChildMap.insert, h1, h2, ChildMap.allWf, hm.1, ih hm.2]

theorem ChildMap.allWf_find {m : ChildMap} (hm : m.allWf = true)
    (hf : m.find k = some v) : v.wf = true := by
  induction m using ChildMap.inductionOn with
  | nil => simp [ChildMap.find] at hf
  | cons k' v' r ih =>
    rw [ChildMap.allWf, Bool.and_eq_true] at hm
    by_cases h1 : k = k'
    · simp [ChildMap.find, h1] at hf
      exact hf ▸ hm.1
    · simp only [ChildMap.find, if_neg h1] at hf
      exact ih hm.2 hf

/-! ### Rendering lemmas -/

mutual
/-- Every node renders to `some` non-empty line list: `Leaf`/`Summary`
lines are singletons and a `Tree` always emits its own name first, so
`prepend_first_and_rest`'s `split_at_mut(1)` is always in bounds. -/
theorem node_lines_some : ∀ n : Node, ∃ ls, Node.lines n = some ls ∧ ls ≠ []
  | .tree (.mk name cs) => by
    obtain ⟨ls, h⟩ := children_lines_some cs
    exact ⟨name :: ls, by simp [Node.lines, Tree.lines, h], by simp⟩
  | .summary s => ⟨Summary.lines s, rfl, by simp [Summary.lines]⟩
  | .leaf l => ⟨Leaf.lines l, rfl, by simp [Leaf.lines]⟩

theorem children_lines_some : ∀ cm : ChildMap, ∃ ls, ChildMap.renderChildren cm = some ls
  | .nil => ⟨[], rfl⟩
  | .cons _ v .nil => by
    obtain ⟨ls, h, hne⟩ := node_lines_some v
    match ls, hne with
    | a :: rest, _ =>
      exact ⟨("└── " ++ a) :: prependWith rest "    ",
        by simp [ChildMap.renderChildren, h, prependFirstAndRest]⟩
  | .cons _ v (.cons k' v' r) => by
    obtain ⟨ls, h, hne⟩ := node_lines_some v
    obtain ⟨ls', h'⟩ := children_lines_some (.cons k' v' r)
    match ls, hne with
    | a :: rest, _ =>
      exact ⟨(("├── " ++ a) :: prependWith rest "│   ") ++ ls',
        by simp [ChildMap.renderChildren, h, h', prependFirstAndRest]⟩
end

theorem lines_eq_linesNE (n : Node) : Node.lines n = some n.linesNE := by
  obtain ⟨ls, h, _⟩ := node_lines_some n
  simp [Node.linesNE, h]

theorem linesNE_ne_nil (n : Node) : n.linesNE ≠ [] := by
  obtain ⟨ls, h, hne⟩ := node_lines_some n
  simpa [Node.linesNE, h] using hne

theorem pfr_eq_pfrT {ls : List String} (h : ls ≠ []) (f r : String) :
    prependFirstAndRest ls f r = some (pfrT ls f r) := by
  cases ls with
  | nil => exact absurd rfl h
  | cons a rest => rfl

theorem toList_ne_nil {cs : ChildMap} (h : cs ≠ .nil) : cs.toList ≠ [] := by
  cases cs with
  | nil => exact absurd rfl h
  | cons k v r => simp [ChildMap.toList]

/-- The child blocks a `Tree` renders: all children but the last prefixed
`"├── "`/`"│   "`, the last `"└── "`/`"    "`, concatenated in map
order. -/
theorem renderChildren_eq (cs : ChildMap) :
    ∀ h : cs.toList ≠ [],
      ChildMap.renderChildren cs =
        some ((cs.toList.dropLast.flatMap fun kv => pfrT kv.2.linesNE "├── " "│   ") ++
          pfrT (cs.toList.getLast h).2.linesNE "└── " "    ") := by
  induction cs using ChildMap.inductionOn with
  | nil => intro h; simp [ChildMap.toList] at h
  | cons k v r ih =>
    intro h
    cases r with
    | nil =>
      simp [ChildMap.renderChildren, lines_eq_linesNE v,
        pfr_eq_pfrT (linesNE_ne_nil v), ChildMap.toList]
    | cons k' v' r' =>
      have hr := ih (by simp [ChildMap.toList])
      rw [ChildMap.renderChildren, lines_eq_linesNE v, Option.some_bind,
        pfr_eq_pfrT (linesNE_ne_nil v), Option.some_bind, hr]
      simp [ChildMap.toList, List.getLast_cons, List.append_assoc]
      exact fun hc => ChildMap.noConfusion hc

/-! ### Insertion lemmas -/

/-- On a path of `Normal` components `add_node_at_path` never reaches
`unimplemented!()` and agrees with the pure `addN`. -/
theorem add_node_at_path_normal :
    ∀ (dirs : List String) (t : Tree) (node : Node) (name : String),
      t.add_node_at_path node name (dirs.map .normal) = .ok (t.addN node name dirs)
  | [], .mk tn cs, node, name => rfl
  | d :: rest, .mk tn cs, node, name => by
    cases hf : cs.find d with
    | none =>
      simp [Tree.add_node_at_path, Tree.addN, hf,
        add_node_at_path_normal rest (.mk d .nil) node name]
    | some n =>
      cases n with
      | tree t' =>
        simp [Tree.add_node_at_path, Tree.addN, hf,
          add_node_at_path_normal rest t' node name]
      | summary s => simp [Tree.add_node_at_path, Tree.addN, hf]
      | leaf l => simp [Tree.add_node_at_path, Tree.addN, hf]

theorem empty_tree_wf (name : String) : (Tree.mk name .nil).wf = true := rfl

/-- `addN` preserves the `BTreeMap` sortedness invariant. -/
theorem Tree.addN_wf :
    ∀ (dirs : List String) (t : Tree) (node : Node) (name : String),
      t.wf = true → node.wf = true → (t.addN node name dirs).wf = true
  | [], .mk tn cs, node, name, hwf, hnode => by
    rw [Tree.wf, Bool.and_eq_true] at hwf
    rw [Tree.addN, Tree.wf, Bool.and_eq_true, ChildMap.sortedKeys_iff_pairwise]
    exact ⟨ChildMap.pairwise_keys_insert
        ((ChildMap.sortedKeys_iff_pairwise cs).1 hwf.1) name node,
      ChildMap.allWf_insert hwf.2 hnode⟩
  | d :: rest, .mk tn cs, node, name, hwf, hnode => by
    rw [Tree.wf, Bool.and_eq_true] at hwf
    have hpw := (ChildMap.sortedKeys_iff_pairwise cs).1 hwf.1
    cases hf : cs.find d with
    | none =>
      have hsub := Tree.addN_wf rest (.mk d .nil) node name (empty_tree_wf d) hnode
      rw [Tree.addN, hf]
      rw [Tree.wf, Bool.and_eq_true, ChildMap.sortedKeys_iff_pairwise]
      exact ⟨ChildMap.pairwise_keys_insert hpw d _,
        ChildMap.allWf_insert hwf.2 (by rw [Node.wf]; exact hsub)⟩
    | some n =>
      cases n with
      | tree t' =>
        have ht' : t'.wf = true := by
          have := ChildMap.allWf_find hwf.2 hf
          rwa [Node.wf] at this
        have hsub := Tree.addN_wf rest t' node name ht' hnode
        rw [Tree.addN, hf]
        rw [Tree.wf, Bool.and_eq_true, ChildMap.sortedKeys_iff_pairwise]
        exact ⟨ChildMap.pairwise_keys_insert hpw d _,
          ChildMap.allWf_insert hwf.2 (by rw [Node.wf]; exact hsub)⟩
      | summary s =>
        rw [Tree.addN, hf]
        rw [Tree.wf, Bool.and_eq_true]
        exact hwf
      | leaf l =>
        rw [Tree.addN, hf]
        rw [Tree.wf, Bool.and_eq_true]
        exact hwf

/-- Inserting a non-`Branch` node right at the root commutes with any
deeper insertion: if the names collide, the non-`Branch` either blocks
the descent (inserted first) or overwrites its result (inserted last),
giving the same map either way. -/
theorem Tree.addN_nil_cons_comm (tn : String) (cs : ChildMap) (node₁ node₂ : Node)
    (hb₁ : node₁.isBranch = false) (n₁ d : String) (ds : List String) (n₂ : String) :
    ((Tree.mk tn cs).addN node₁ n₁ []).addN node₂ n₂ (d :: ds) =
      ((Tree.mk tn cs).addN node₂ n₂ (d :: ds)).addN node₁ n₁ [] := by
  by_cases hn1d : n₁ = d
  · subst hn1d
    have hself := ChildMap.find_insert_self n₁ node₁ cs
    cases hf : cs.find n₁ with
    | none =>
      cases node₁ with
      | tree t => simp [Node.isBranch] at hb₁
      | summary s =>
        simp [Tree.addN, hf, hself, ChildMap.insert_insert_self]
      | leaf l =>
        simp [Tree.addN, hf, hself, ChildMap.insert_insert_self]
    | some n =>
      cases n with
      | tree t' =>
        cases node₁ with
        | tree t => simp [Node.isBranch] at hb₁
        | summary s =>
          simp [Tree.addN, hf, hself, ChildMap.insert_insert_self]
        | leaf l =>
          simp [Tree.addN, hf, hself, ChildMap.insert_insert_self]
      | summary s' =>
        cases node₁ with
        | tree t => simp [Node.isBranch] at hb₁
        | summary s =>
          simp [Tree.addN, hf, hself, ChildMap.insert_insert_self]
        | leaf l =>
          simp [Tree.addN, hf, hself, ChildMap.insert_insert_self]
      | leaf l' =>
        cases node₁ with
        | tree t => simp [Node.isBranch] at hb₁
        | summary s =>
          simp [Tree.addN, hf, hself, ChildMap.insert_insert_self]
        | leaf l =>
          simp [Tree.addN, hf, hself, ChildMap.insert_insert_self]
  · have hdn : d ≠ n₁ := fun hh => hn1d hh.symm
    cases hf : cs.find d with
    | none =>
      simp [Tree.addN, hf, ChildMap.find_insert_ne hdn, ChildMap.insert_comm hn1d]
    | some n =>
      cases n with
      | tree t' =>
        simp [Tree.addN, hf, ChildMap.find_insert_ne hdn, ChildMap.insert_comm hn1d]
      | summary s => simp [Tree.addN, hf, ChildMap.find_insert_ne hdn]
      | leaf l => simp [Tree.addN, hf, ChildMap.find_insert_ne hdn]

/-- Two insertions of non-`Branch` nodes at distinct `(parent, name)`
addresses commute. -/
theorem Tree.addN_comm :
    ∀ (dirs₁ dirs₂ : List String) (t : Tree) (node₁ node₂ : Node) (n₁ n₂ : String),
      node₁.isBranch = false → node₂.isBranch = false →
      (dirs₁ ≠ dirs₂ ∨ n₁ ≠ n₂) →
      (t.addN node₁ n₁ dirs₁).addN node₂ n₂ dirs₂ =
        (t.addN node₂ n₂ dirs₂).addN node₁ n₁ dirs₁
  | [], [], .mk tn cs, node₁, node₂, n₁, n₂, hb₁, hb₂, hne => by
    have hn : n₁ ≠ n₂ := by
      rcases hne with h | h
      · exact absurd rfl h
      · exact h
    simp [Tree.addN, ChildMap.insert_comm hn]
  | [], d :: ds, t, node₁, node₂, n₁, n₂, hb₁, hb₂, hne => by
    cases t with
    | mk tn cs => exact Tree.addN_nil_cons_comm tn cs node₁ node₂ hb₁ n₁ d ds n₂
  | d :: ds, [], t, node₁, node₂, n₁, n₂, hb₁, hb₂, hne => by
    cases t with
    | mk tn cs => exact (Tree.addN_nil_cons_comm tn cs node₂ node₁ hb₂ n₂ d ds n₁).symm
  | d₁ :: ds₁, d₂ :: ds₂, .mk tn cs, node₁, node₂, n₁, n₂, hb₁, hb₂, hne => by
    by_cases hd : d₁ = d₂
    · subst hd
      have hne' : ds₁ ≠ ds₂ ∨ n₁ ≠ n₂ := by
        rcases hne with h | h
        · by_cases hds : ds₁ = ds₂
          · exact absurd (by rw [hds]) h
          · exact Or.inl hds
        · exact Or.inr h
      cases hf : cs.find d₁ with
      | none =>
        simp only [Tree.addN, hf, ChildMap.find_insert_self,
          ChildMap.insert_insert_self]
        rw [Tree.addN_comm ds₁ ds₂ (.mk d₁ .nil) node₁ node₂ n₁ n₂ hb₁ hb₂ hne']
      | some n =>
        cases n with
        | tree t' =>
          simp only [Tree.addN, hf, ChildMap.find_insert_self,
            ChildMap.insert_insert_self]
          rw [Tree.addN_comm ds₁ ds₂ t' node₁ node₂ n₁ n₂ hb₁ hb₂ hne']
        | summary s => simp [Tree.addN, hf]
        | leaf l => simp [Tree.addN, hf]
    · have hd21 : d₂ ≠ d₁ := fun hh => hd hh.symm
      cases hf1 : cs.find d₁ with
      | none =>
        cases hf2 : cs.find d₂ with
        | none =>
          simp [Tree.addN, hf1, hf2, ChildMap.find_insert_ne hd21,
            ChildMap.find_insert_ne hd, ChildMap.insert_comm hd]
        | some n2 =>
          cases n2 with
          | tree t2 =>
            simp [Tree.addN, hf1, hf2, ChildMap.find_insert_ne hd21,
              ChildMap.find_insert_ne hd, ChildMap.insert_comm hd]
          | summary s2 =>
            simp [Tree.addN, hf1, hf2, ChildMap.find_insert_ne hd21,
              ChildMap.find_insert_ne hd]
          | leaf l2 =>
            simp [Tree.addN, hf1, hf2, ChildMap.find_insert_ne hd21,
              ChildMap.find_insert_ne hd]
      | some n1 =>
        cases n1 with
        | tree t1 =>
          cases hf2 : cs.find d₂ with
          | none =>
            simp [Tree.addN, hf1, hf2, ChildMap.find_insert_ne hd21,
              ChildMap.find_insert_ne hd, ChildMap.insert_comm hd]
          | some n2 =>
            cases n2 with
            | tree t2 =>
              simp [Tree.addN, hf1, hf2, ChildMap.find_insert_ne hd21,
                ChildMap.find_insert_ne hd, ChildMap.insert_comm hd]
            | summary s2 =>
              simp [Tree.addN, hf1, hf2, ChildMap.find_insert_ne hd21,
                ChildMap.find_insert_ne hd]
            | leaf l2 =>
              simp [Tree.addN, hf1, hf2, ChildMap.find_insert_ne hd21,
                ChildMap.find_insert_ne hd]
        | summary s1 =>
          cases hf2 : cs.find d₂ with
          | none =>
            simp [Tree.addN, hf1, hf2, ChildMap.find_insert_ne hd21,
              ChildMap.find_insert_ne hd]
          | some n2 =>
            cases n2 with
            | tree t2 =>
              simp [Tree.addN, hf1, hf2, ChildMap.find_insert_ne hd21,
                ChildMap.find_insert_ne hd]
            | summary s2 => simp [Tree.addN, hf1, hf2]
            | leaf l2 => simp [Tree.addN, hf1, hf2]
        | leaf l1 =>
          cases hf2 : cs.find d₂ with
          | none =>
            simp [Tree.addN, hf1, hf2, ChildMap.find_insert_ne hd21,
              ChildMap.find_insert_ne hd]
          | some n2 =>
            cases n2 with
            | tree t2 =>
              simp [Tree.addN, hf1, hf2, ChildMap.find_insert_ne hd21,
                ChildMap.find_insert_ne hd]
            | summary s2 => simp [Tree.addN, hf1, hf2]
            | leaf l2 => simp [Tree.addN, hf1, hf2]

/-- Record insertion never fails on plain relative paths and agrees with
its pure form. -/
theorem insertRecord_eq_ok (t : Tree) (r : List String × Status) :
    insertRecord t r = .ok (insertRecordN t r) := by
  obtain ⟨p, st⟩ := r
  cases hp : p.getLast? with
  | none =>
    have hnil : p = [] := List.getLast?_eq_none_iff.1 hp
    subst hnil
    rfl
  | some lastName =>
    cases p with
    | nil => simp at hp
    | cons a l =>
      have hmap : ((a :: l).map PathComp.normal).getLast? = some (.normal lastName) := by
        rw [List.getLast?_map, hp, Option.map_some']
      show Tree.add_leaf_at_path t ⟨fileName ((a :: l).map .normal), st⟩
          (((a :: l).map PathComp.normal).dropLast) = _
      rw [show fileName ((a :: l).map .normal) = lastName by rw [fileName, hmap],
        show ((a :: l).map PathComp.normal).dropLast = (a :: l).dropLast.map .normal from
          (List.map_dropLast _ _).symm]
      rw [Tree.add_leaf_at_path, add_node_at_path_normal]
      simp [insertRecordN, hp]

theorem build_aux :
    ∀ (l : List (List String × Status)) (t : Tree),
      l.foldl (fun (acc : Except String Tree) r => acc.bind (fun t' => insertRecord t' r))
        (Except.ok t) = .ok (l.foldl insertRecordN t)
  | [], t => rfl
  | r :: rest, t => by
    simp only [List.foldl_cons, Except.bind, insertRecord_eq_ok t r]
    exact build_aux rest (insertRecordN t r)

theorem buildTree_eq_ok (name : String) (l : List (List String × Status)) :
    buildTree name l = .ok (buildTreeN name l) :=
  build_aux l (.mk name .nil)

/-- Folding a list with an operation that commutes on the list's elements
is permutation-invariant. -/
theorem foldl_perm_of_comm {α β : Type} {g : β → α → β} :
    ∀ {l₁ l₂ : List α}, l₁.Perm l₂ →
      (∀ x ∈ l₁, ∀ y ∈ l₁, ∀ z : β, g (g z x) y = g (g z y) x) →
      ∀ z : β, l₁.foldl g z = l₂.foldl g z := by
  intro l₁ l₂ hp
  induction hp with
  | nil => intro _ _; rfl
  | cons x p ih =>
    intro hc z
    simp only [List.foldl_cons]
    exact ih (fun a ha b hb => hc a (List.mem_cons_of_mem _ ha)
      b (List.mem_cons_of_mem _ hb)) _
  | swap x y l =>
    intro hc z
    simp only [List.foldl_cons]
    rw [hc x (by simp) y (by simp) z]
  | trans p₁ p₂ ih₁ ih₂ =>
    intro hc z
    rw [ih₁ hc z]
    exact ih₂ (fun a ha b hb => hc a (p₁.mem_iff.2 ha) b (p₁.mem_iff.2 hb)) z

/-- Insertions of records with distinct paths commute. -/
theorem insertRecordN_comm (t : Tree) (r₁ r₂ : List String × Status)
    (h : r₁.1 ≠ r₂.1) :
    insertRecordN (insertRecordN t r₁) r₂ = insertRecordN (insertRecordN t r₂) r₁ := by
  obtain ⟨p₁, st₁⟩ := r₁
  obtain ⟨p₂, st₂⟩ := r₂
  simp only at h
  cases hp₁ : p₁.getLast? with
  | none =>
    have : p₁ = [] := List.getLast?_eq_none_iff.1 hp₁
    subst this
    simp [insertRecordN]
  | some last₁ =>
    cases hp₂ : p₂.getLast? with
    | none =>
      have : p₂ = [] := List.getLast?_eq_none_iff.1 hp₂
      subst this
      simp [insertRecordN]
    | some last₂ =>
      have hsplit : p₁.dropLast ≠ p₂.dropLast ∨ last₁ ≠ last₂ := by
        by_cases hd : p₁.dropLast = p₂.dropLast
        · by_cases hl : last₁ = last₂
          · exfalso
            apply h
            rw [← List.dropLast_append_getLast? last₁ hp₁,
              ← List.dropLast_append_getLast? last₂ hp₂, hd, hl]
          · exact Or.inr hl
        · exact Or.inl hd
      simp only [insertRecordN, hp₁, hp₂]
      exact Tree.addN_comm p₁.dropLast p₂.dropLast t (.leaf ⟨last₁, st₁⟩)
        (.leaf ⟨last₂, st₂⟩) last₁ last₂ rfl rfl hsplit

theorem insertRecordN_wf (t : Tree) (r : List String × Status) (h : t.wf = true) :
    (insertRecordN t r).wf = true := by
  obtain ⟨p, st⟩ := r
  cases hp : p.getLast? with
  | none => simpa [insertRecordN, hp] using h
  | some lastName =>
    simp only [insertRecordN, hp]
    exact Tree.addN_wf p.dropLast t (.leaf ⟨lastName, st⟩) lastName h rfl

theorem buildTreeN_wf_aux :
    ∀ (l : List (List String × Status)) (t : Tree), t.wf = true →
      (l.foldl insertRecordN t).wf = true
  | [], t, h => h
  | r :: rest, t, h => by
    simp only [List.foldl_cons]
    exact buildTreeN_wf_aux rest (insertRecordN t r) (insertRecordN_wf t r h)

theorem buildTreeN_wf (name : String) (l : List (List String × Status)) :
    (buildTreeN name l).wf = true :=
  buildTreeN_wf_aux l (.mk name .nil) rfl

/-! ### Walk lemmas -/

/-- When no child's walk panics, `collectChildren` keeps exactly the
`Ok(Some(..))` results, in order, and never returns an error itself. -/
theorem collectChildren_eq (childDepth : Nat) (args : Args) :
    ∀ entries : List (String × Location),
      (∀ p ∈ entries, (walkPath p.1 p.2 childDepth args).isPanic = false) →
      collectChildren entries childDepth args =
        .ok (entries.filterMap fun p =>
          match walkPath p.1 p.2 childDepth args with
          | .ok (some node) => some (p.1, node)
          | _ => none) := by
  intro entries
  induction entries with
  | nil => intro _; simp [collectChildren]
  | cons p rest ih =>
    intro h
    obtain ⟨n, loc⟩ := p
    have hrest := ih (fun q hq => h q (List.mem_cons_of_mem _ hq))
    cases hw : walkPath n loc childDepth args with
    | ok onode =>
      cases onode with
      | none => simp [collectChildren, hw, hrest]
      | some node => simp [collectChildren, hw, hrest]
    | error e => simp [collectChildren, hw, hrest]
    | panic e =>
      have := h (n, loc) (List.mem_cons_self _ _)
      rw [hw] at this
      simp [WalkResult.isPanic] at this

theorem foldl_add_node_aux :
    ∀ (l : List (String × Node)) (name : String) (cs : ChildMap),
      l.foldl (fun (t : Tree) p => t.add_node p.2 p.1) (Tree.mk name cs) =
        .mk name (l.foldl (fun (m : ChildMap) p => m.insert p.1 p.2) cs)
  | [], _, _ => rfl
  | p :: rest, name, cs => by
    simp only [List.foldl_cons, Tree.add_node, Tree.name, Tree.children]
    exact foldl_add_node_aux rest name (cs.insert p.1 p.2)

/-! ### Helper inductions for insertion claims -/

/-- Reaching a non-`Normal` component (no non-`Branch` child blocks the
walk first) always dies in `unimplemented!()`, inserting nothing. -/
theorem add_unsupported_fails :
    ∀ (pre : List String) (t : Tree) (node : Node) (name : String) (bad : PathComp)
      (rest : List PathComp), bad.isNormal = false → t.blockedAt pre = false →
      t.add_node_at_path node name (pre.map .normal ++ bad :: rest) =
        .error unimplementedMsg
  | [], .mk tn cs, node, name, bad, rest, hbad, _ => by
    cases bad with
    | normal s => simp [PathComp.isNormal] at hbad
    | rootDir => rfl
    | curDir => rfl
    | parentDir => rfl
  | d :: ds, .mk tn cs, node, name, bad, rest, hbad, hnb => by
    cases hf : cs.find d with
    | none =>
      have hfresh : (Tree.mk d .nil).blockedAt ds = false := by
        cases ds with
        | nil => rfl
        | cons e es => simp [Tree.blockedAt, Tree.children, ChildMap.find]
      simp [Tree.add_node_at_path, hf,
        add_unsupported_fails ds (.mk d .nil) node name bad rest hbad hfresh]
    | some n =>
      cases n with
      | tree t' =>
        have hb' : t'.blockedAt ds = false := by
          simpa [Tree.blockedAt, Tree.children, hf] using hnb
        simp [Tree.add_node_at_path, hf,
          add_unsupported_fails ds t' node name bad rest hbad hb']
      | summary s => simp [Tree.blockedAt, Tree.children, hf] at hnb
      | leaf l => simp [Tree.blockedAt, Tree.children, hf] at hnb

/-- An insertion whose walk is blocked by an existing non-`Branch` child
leaves a well-formed tree exactly as it was, reporting nothing. -/
theorem add_blocked_noop :
    ∀ (dirs : List String) (t : Tree) (node : Node) (name : String),
      t.wf = true → t.blockedAt dirs = true →
      t.add_node_at_path node name (dirs.map .normal) = .ok t
  | [], t, _, _, _, hb => by simp [Tree.blockedAt] at hb
  | d :: ds, .mk tn cs, node, name, hwf, hb => by
    rw [Tree.wf, Bool.and_eq_true] at hwf
    cases hf : cs.find d with
    | none => simp [Tree.blockedAt, Tree.children, hf] at hb
    | some n =>
      cases n with
      | tree t' =>
        have hb' : t'.blockedAt ds = true := by
          simpa [Tree.blockedAt, Tree.children, hf] using hb
        have ht' : t'.wf = true := by
          have := ChildMap.allWf_find hwf.2 hf
          rwa [Node.wf] at this
        simp [Tree.add_node_at_path, hf, add_blocked_noop ds t' node name ht' hb',
          ChildMap.insert_find_self_eq ((ChildMap.sortedKeys_iff_pairwise cs).1 hwf.1) hf]
      | summary s => simp [Tree.add_node_at_path, hf]
      | leaf l => simp [Tree.add_node_at_path, hf]

/-! ### Claim theorems -/

/-- C1: a Branch with children renders its own name first, then every
child but the last with `"├── "` on the first line and `"│   "` on the
rest, then the last child with `"└── "`/`"    "`, the children taken in
ascending key order; an empty Branch renders exactly its own name. -/
theorem c1_branch_rendering (name : String) (cs : ChildMap)
    (hs : cs.sortedKeys = true) :
    (cs = .nil → Tree.lines (.mk name cs) = some [name]) ∧
    (∀ h : cs.toList ≠ [],
      Tree.lines (.mk name cs) =
        some (name ::
          ((cs.toList.dropLast.flatMap fun kv => pfrT kv.2.linesNE "├── " "│   ") ++
            pfrT (cs.toList.getLast h).2.linesNE "└── " "    "))) ∧
    (cs.toList.map Prod.fst).Pairwise (· < ·) := by
  refine ⟨?_, ?_, ?_⟩
  · rintro rfl
    rfl
  · intro h
    rw [Tree.lines, renderChildren_eq cs h, Option.map_some']
  · have := (ChildMap.sortedKeys_iff_pairwise cs).1 hs
    have hkeys : cs.keys = cs.toList.map Prod.fst := by
      clear this hs
      induction cs using ChildMap.inductionOn with
      | nil => rfl
      | cons k v r ih => simp [ChildMap.keys, ChildMap.toList, ih]
    rwa [hkeys] at this

theorem c1_branch_rendering_witness :
    (ChildMap.cons "a" (.leaf ⟨"a", .worktreeModified⟩) .nil).sortedKeys = true ∧
    Tree.lines (.mk "r" (.cons "a" (.leaf ⟨"a", .worktreeModified⟩) .nil)) =
      some ("r" ::
        (([] : List (String × Node)).flatMap (fun kv => pfrT kv.2.linesNE "├── " "│   ") ++
          pfrT (Node.leaf ⟨"a", .worktreeModified⟩).linesNE "└── " "    ")) :=
  ⟨rfl, by
    have h := (c1_branch_rendering "r" (.cons "a" (.leaf ⟨"a", .worktreeModified⟩) .nil)
      rfl).2.1 (by simp [ChildMap.toList])
    simpa [ChildMap.toList] using h⟩

/-- C2 (counterexample): two insertion sequences of the same set of
`(path, category)` records — the set containing `("f", worktree-modified)`
and `("f", index-added)` — render differently, because the later insert at
the duplicate path wins. -/
theorem c2_insertion_order_counterexample :
    renderBuild "." [(["f"], .worktreeModified), (["f"], .indexAdded)] ≠
        renderBuild "." [(["f"], .indexAdded), (["f"], .worktreeModified)] ∧
      [(["f"], Status.worktreeModified), (["f"], Status.indexAdded)].Perm
        [(["f"], Status.indexAdded), (["f"], Status.worktreeModified)] := by
  constructor
  · rw [renderBuild, renderBuild, buildTree_eq_ok, buildTree_eq_ok]
    simp only [buildTreeN, List.foldl_cons, List.foldl_nil, insertRecordN, Tree.addN,
      ChildMap.insert, ChildMap.find, lt_self_iff_false, if_false, if_pos rfl,
      List.getLast?, List.dropLast]
    decide
  · exact List.Perm.swap (["f"], Status.indexAdded) (["f"], Status.worktreeModified) []

/-- C2 (amended): for records with pairwise-distinct paths, any two
insertion sequences of the same records build the same tree — whose
children maps are sorted lexicographically at every level — and render to
the same line sequence; with duplicate paths the last insert wins, so
order can matter (see the counterexample). -/
theorem c2_lex_order_insertion_invariance (name : String)
    (l₁ l₂ : List (List String × Status)) (hperm : l₁.Perm l₂)
    (hdist : l₁.Pairwise (fun r s => r.1 ≠ s.1)) :
    buildTree name l₁ = buildTree name l₂ ∧
    renderBuild name l₁ = renderBuild name l₂ ∧
    (∀ t, buildTree name l₁ = .ok t → t.wf = true) := by
  have hcomm : ∀ x ∈ l₁, ∀ y ∈ l₁, ∀ z : Tree,
      insertRecordN (insertRecordN z x) y = insertRecordN (insertRecordN z y) x := by
    intro x hx y hy z
    by_cases hxy : x = y
    · subst hxy; rfl
    · have hsymm : Symmetric (fun r s : List String × Status => r.1 ≠ s.1) :=
        fun _ _ h => Ne.symm h
      exact insertRecordN_comm z x y (List.Pairwise.forall hsymm hdist hx hy hxy)
  have hN : buildTreeN name l₁ = buildTreeN name l₂ :=
    foldl_perm_of_comm hperm hcomm (.mk name .nil)
  have hB : buildTree name l₁ = buildTree name l₂ := by
    rw [buildTree_eq_ok, buildTree_eq_ok, hN]
  refine ⟨hB, by rw [renderBuild, renderBuild, hB], ?_⟩
  intro t ht
  rw [buildTree_eq_ok] at ht
  cases ht
  exact buildTreeN_wf name l₁

theorem c2_lex_order_insertion_invariance_witness :
    buildTree "." [(["a"], Status.worktreeModified), (["b"], Status.indexAdded)] =
        buildTree "." [(["b"], Status.indexAdded), (["a"], Status.worktreeModified)] ∧
      renderBuild "." [(["a"], Status.worktreeModified), (["b"], Status.indexAdded)] =
        renderBuild "." [(["b"], Status.indexAdded), (["a"], Status.worktreeModified)] ∧
      (∀ t, buildTree "." [(["a"], Status.worktreeModified), (["b"], Status.indexAdded)] =
        .ok t → t.wf = true) :=
  c2_lex_order_insertion_invariance "."
    [(["a"], Status.worktreeModified), (["b"], Status.indexAdded)]
    [(["b"], Status.indexAdded), (["a"], Status.worktreeModified)]
    (List.Perm.swap (["b"], Status.indexAdded) (["a"], Status.worktreeModified) [])
    (by simp)

/-- C3: a non-directory yields no node at any budget; a repository is
walked whatever the budget (including `0`); a plain directory yields no
node at budget `0`; at budget `N = d + 1` the directory's listing is
walked with the decremented budget `d`. -/
theorem c3_depth_semantics (args : Args) :
    (∀ (name : String) (d : Nat), walkPath name .file d args = .ok none) ∧
    (∀ (name : String) (r : RepoData) (d : Nat),
      walkPath name (.repo r) d args = walkRepository r name args) ∧
    (∀ (name : String) (rd : Option (List (Option (String × Location)))),
      walkPath name (.dir rd) 0 args = .ok none) ∧
    (∀ (name : String) (entries : List (Option (String × Location))) (d : Nat),
      walkPath name (.dir (some entries)) (d + 1) args =
        match walkDirectory name entries d args with
        | .ok node => .ok (some node)
        | .error e => .error e
        | .panic e => .panic e) := by
  refine ⟨fun name d => ?_, fun name r d => ?_, fun name rd => ?_, fun name entries d => ?_⟩
  · simp [walkPath]
  · simp [walkPath]
  · simp [walkPath]
  · simp [walkPath]

/-- C4: recursing over a plain directory's entries with the decremented
budget keeps exactly the children whose walk returns `Ok(Some(..))`,
keyed by their own file names; unreadable entries, erroring walks and
empty results are dropped, and (absent a process-aborting panic) the walk
itself always returns `Ok`. -/
theorem c4_best_effort_directory_walk (name : String)
    (entries : List (Option (String × Location))) (childDepth : Nat) (args : Args)
    (h : ∀ p ∈ entries.filterMap id,
      (walkPath p.1 p.2 childDepth args).isPanic = false) :
    walkDirectory name entries childDepth args =
      .ok (.tree (.mk name (ChildMap.ofList
        ((entries.filterMap id).filterMap fun p =>
          match walkPath p.1 p.2 childDepth args with
          | .ok (some node) => some (p.1, node)
          | _ => none)))) := by
  have hc := collectChildren_eq childDepth args (entries.filterMap id) h
  simp [walkDirectory, hc, foldl_add_node_aux, ChildMap.ofList]

theorem c4_best_effort_directory_walk_witness :
    walkDirectory "d" [] 0 ⟨false, 0, false, false⟩ =
      .ok (.tree (.mk "d" (ChildMap.ofList []))) :=
  c4_best_effort_directory_walk "d" [] 0 ⟨false, 0, false, false⟩ (by simp)

/-- C5: when the top-level walk yields no node, `run` falls back to
discovery: a `NotFound` repository error becomes the user-facing
"no git repository found … `--depth`" message, any other discovery error
propagates unchanged, and a discovered repository is walked. -/
theorem c5_fallback_discovery (loc : Location) (disc : DiscoverResult) (args : Args)
    (h : walkPath "." loc args.depth args = .ok none) :
    (disc = .notFound → run loc disc args = .error (noRepoMessage ".")) ∧
    (∀ e, disc = .otherError e → run loc disc args = .error e) ∧
    (∀ r, disc = .found r → run loc disc args = walkRepository r "." args) := by
  refine ⟨?_, ?_, ?_⟩
  · rintro rfl
    simp [run, h, fallback]
  · rintro e rfl
    simp [run, h, fallback]
  · rintro r rfl
    simp [run, h, fallback]

theorem c5_fallback_discovery_witness :
    run .file .notFound ⟨false, 0, false, false⟩ = .error (noRepoMessage ".") :=
  (c5_fallback_discovery .file .notFound ⟨false, 0, false, false⟩ (by simp [walkPath])).1 rfl

/-- C6: in summary mode with `--only-show-changes`, a repository whose
diff stats have zero insertions and zero deletions yields no node
whatever `files_changed` is; otherwise a `Summary` node carrying the
branch label and the three counts is produced. -/
theorem c6_summary_only_show_changes (name : String) (r : RepoData) (args : Args)
    (stats : DiffStat) (hs : args.summary = true) (ho : args.only_show_changes = true)
    (hd : r.diffStat = .ok stats) :
    (stats.insertions = 0 → stats.deletions = 0 →
      walkRepository r name args = .ok none) ∧
    (stats.insertions ≠ 0 ∨ stats.deletions ≠ 0 →
      walkRepository r name args = .ok (some (.summary ⟨name, stats⟩))) := by
  constructor
  · intro hi hdel
    simp [walkRepository, hs, walkSummary, hd, ho, hi, hdel]
  · intro hne
    rcases hne with hne | hne
    · simp [walkRepository, hs, walkSummary, hd, ho, hne]
    · simp [walkRepository, hs, walkSummary, hd, ho, hne]

theorem c6_summary_only_show_changes_witness :
    walkRepository ⟨.ok [], .ok ⟨"main", 7, 0, 0⟩⟩ "repo" ⟨false, 0, true, true⟩ =
      .ok none :=
  (c6_summary_only_show_changes "repo" ⟨.ok [], .ok ⟨"main", 7, 0, 0⟩⟩
    ⟨false, 0, true, true⟩ ⟨"main", 7, 0, 0⟩ rfl rfl rfl).1 rfl rfl

/-- C7: the index-column glyph is `M` for index-modified, `N` for
index-added, `-` otherwise; the worktree-column glyph is `M` for
worktree-modified, `N` for worktree-added, `D` for worktree-removed,
`-` otherwise; the two are computed
independently and both appear, grayed, in the one rendered leaf line; a
worktree-modified-only record gets the plain red (modified-plain) style
with glyphs `-M`. -/
theorem c7_modifier_glyphs :
    (∀ st : Status,
      (modifierIndex st =
        if st = .indexModified then "M" else if st = .indexAdded then "N" else "-") ∧
      (modifierWorktree st =
        if st = .worktreeModified then "M" else if st = .worktreeAdded then "N"
        else if st = .worktreeRemoved then "D" else "-") ∧
      (∀ name : String, Leaf.lines ⟨name, st⟩ =
        [grayStyle.paint (modifierIndex st) ++ grayStyle.paint (modifierWorktree st)
          ++ " " ++ (leafStyle st).paint name])) ∧
    (leafStyle .worktreeModified = ⟨.red, false⟩ ∧
      modifierIndex .worktreeModified = "-" ∧ modifierWorktree .worktreeModified = "M") := by
  refine ⟨fun st => ⟨?_, ?_, fun name => rfl⟩, rfl, rfl, rfl⟩
  · cases st <;> decide
  · cases st <;> decide

/-- C8 (counterexample): a record whose path contains the non-plain
component `..` is not always rejected: when an earlier component is
occupied by a non-`Branch` child, the insertion silently returns the tree
unchanged instead of failing. -/
theorem c8_unsupported_component_counterexample :
    Tree.add_node_at_path (.mk "root" (.cons "a" (.leaf ⟨"a", .worktreeModified⟩) .nil))
      (.leaf ⟨"f", .worktreeAdded⟩) "f" [.normal "a", .parentDir] =
    .ok (.mk "root" (.cons "a" (.leaf ⟨"a", .worktreeModified⟩) .nil)) := rfl

/-- C8 (amended): if the walk actually reaches the first non-plain
component — i.e. no existing non-`Branch` child blocks the descent over
the plain components before it — the insertion fails fast with the
`unimplemented!()` contract violation and inserts nothing. -/
theorem c8_unsupported_component_fails (t : Tree) (node : Node) (name : String)
    (pre : List String) (bad : PathComp) (rest : List PathComp)
    (hbad : bad.isNormal = false) (hnb : t.blockedAt pre = false) :
    t.add_node_at_path node name (pre.map .normal ++ bad :: rest) =
      .error unimplementedMsg :=
  add_unsupported_fails pre t node name bad rest hbad hnb

theorem c8_unsupported_component_fails_witness :
    Tree.add_node_at_path (.mk "r" .nil) (.leaf ⟨"x", .ignored⟩) "x" [.parentDir] =
      .error unimplementedMsg :=
  c8_unsupported_component_fails (.mk "r" .nil) (.leaf ⟨"x", .ignored⟩) "x" []
    .parentDir [] rfl rfl

/-- C9: every node renders to a defined, non-empty line sequence — a Leaf
or Summary to exactly one line, a Branch to at least its own name line —
so the `split_at_mut(1)` inside `prepend_first_and_rest` is always in
bounds and rendering never panics. -/
theorem c9_rendering_total :
    (∀ l : Leaf, (Leaf.lines l).length = 1) ∧
    (∀ s : Summary, (Summary.lines s).length = 1) ∧
    (∀ (name : String) (cs : ChildMap), ∃ tail,
      Tree.lines (.mk name cs) = some (name :: tail)) ∧
    (∀ n : Node, ∃ ls, Node.lines n = some ls ∧ ls ≠ []) := by
  refine ⟨fun l => rfl, fun s => rfl, fun name cs => ?_, node_lines_some⟩
  obtain ⟨ls, h⟩ := children_lines_some cs
  exact ⟨ls, by rw [Tree.lines, h, Option.map_some']⟩

/-- C10: an insertion whose relative path meets an existing non-`Branch`
child at a directory component leaves the (well-formed) tree exactly as
it was: nothing is replaced, no error is reported, the record is
silently dropped. -/
theorem c10_blocked_insertion_noop (t : Tree) (node : Node) (name : String)
    (dirs : List String) (hwf : t.wf = true) (hb : t.blockedAt dirs = true) :
    t.add_node_at_path node name (dirs.map .normal) = .ok t :=
  add_blocked_noop dirs t node name hwf hb

theorem c10_blocked_insertion_noop_witness :
    Tree.add_node_at_path (.mk "r" (.cons "a" (.leaf ⟨"a", .ignored⟩) .nil))
      (.leaf ⟨"c", .worktreeAdded⟩) "c" [.normal "a"] =
    .ok (.mk "r" (.cons "a" (.leaf ⟨"a", .ignored⟩) .nil)) :=
  c10_blocked_insertion_noop (.mk "r" (.cons "a" (.leaf ⟨"a", .ignored⟩) .nil))
    (.leaf ⟨"c", .worktreeAdded⟩) "c" ["a"] (by decide) (by decide)

end GitTree
